import Mathlib

/-!
Verification of the Emplex lexer-generator specification against the sources.

The repository sources contain the Emplex web front end (token-table
management, rule validation, and the calls into the `emp::Lexer` engine).
The engine itself (`emp/compiler/Lexer.hpp` with its RegEx/NFA/DFA layers) is
not among the sources, so the scanner/DFA layer below is modelled from the
specification; the table/validation/generation layer is translated directly
from the Emplex front-end sources.

Bytes are modelled as natural numbers (the alphabet is raw bytes 0-255),
NFA states as natural numbers below a bound, and DFA states as finite sets
of NFA states, exactly as in the spec's subset construction.
-/

/-- Modelled from the spec: the merged NFA produced by the NFA Builder
(`emp/compiler/Lexer.hpp` is not in the sources).  States are `0 .. n-1`;
`eps q` is the set of epsilon successors of `q`; `bstep q b` the set of
successors of `q` on byte `b`; `accept q` is the accept metadata
`(priority, ignore)` carried by a rule's accepting state, or `none`. -/
structure LexNFA where
  n : Nat
  start : Nat
  eps : Nat → Finset Nat
  bstep : Nat → Nat → Finset Nat
  accept : Nat → Option (Nat × Bool)

/-- Well-formedness of a merged NFA: the start state and every transition
target lie below the state bound `n`. -/
def WFA (A : LexNFA) : Prop :=
  A.start < A.n ∧ (∀ q, A.eps q ⊆ Finset.range A.n) ∧
    (∀ q b, A.bstep q b ⊆ Finset.range A.n)

/-- One round of epsilon expansion: add all epsilon successors. -/
def epsExpand (A : LexNFA) (X : Finset Nat) : Finset Nat :=
  X ∪ X.biUnion A.eps

/-- Modelled from the spec: the epsilon-closure used by the DFA Builder's
subset construction.  Iterating the one-step expansion `n` times reaches the
closure for any set of states below the bound. -/
def epsClosure (A : LexNFA) (X : Finset Nat) : Finset Nat :=
  (epsExpand A)^[A.n] X

/-- The set of NFA states reachable from `S` by consuming byte `b`
(before taking the epsilon-closure). -/
def byteSuccs (A : LexNFA) (S : Finset Nat) (b : Nat) : Finset Nat :=
  S.biUnion (fun q => A.bstep q b)

/-- Modelled from the spec: the total DFA transition function of the subset
construction.  The empty set is the distinguished dead state. -/
def dfaStep (A : LexNFA) (S : Finset Nat) (b : Nat) : Finset Nat :=
  epsClosure A (byteSuccs A S b)

/-- Modelled from the spec: the DFA start state is the epsilon-closure of
the NFA start state. -/
def dfaStart (A : LexNFA) : Finset Nat :=
  epsClosure A {A.start}

/-- The DFA state reached after consuming the byte string `s`. -/
def dfaRun (A : LexNFA) (s : List Nat) : Finset Nat :=
  s.foldl (dfaStep A) (dfaStart A)

/-- Merge step for accept metadata: keep the entry with the lower priority
value (the earlier-listed rule). -/
def pickAccept (A : LexNFA) (best : Option (Nat × Bool)) (q : Nat) :
    Option (Nat × Bool) :=
  match A.accept q, best with
  | none, b => b
  | some m, none => some m
  | some m, some m' => if m.1 < m'.1 then some m else some m'

/-- Modelled from the spec: the accept metadata of a DFA state is computed
from its underlying NFA-state subset, keeping the metadata with the minimum
priority value among the accepting NFA states present. -/
def dfaAccept (A : LexNFA) (S : Finset Nat) : Option (Nat × Bool) :=
  ((List.range A.n).filter (fun q => q ∈ S)).foldl (pickAccept A) none

/-- Modelled from the spec: epsilon-reachability inside the merged NFA. -/
def EpsReach (A : LexNFA) (p q : Nat) : Prop :=
  Relation.ReflTransGen (fun a c => c ∈ A.eps a) p q

/-- Modelled from the spec: `Runs A p s q` holds when the NFA can consume
the byte string `s` starting from state `p` and end in state `q`, using
epsilon moves freely.  This is the ground-truth notion of an NFA run used
to express what it means for a rule to match a lexeme. -/
inductive Runs (A : LexNFA) : Nat → List Nat → Nat → Prop where
  | nil {p q : Nat} : EpsReach A p q → Runs A p [] q
  | cons {p p' q' q : Nat} {b : Nat} {s : List Nat} :
      EpsReach A p p' → q' ∈ A.bstep p' b → Runs A q' s q → Runs A p (b :: s) q

/-- Modelled from the spec: rule number `k` (the rule's 0-based ordinal)
matches the byte string `s` exactly when some NFA run over `s` from the
merged start state ends in an accepting state tagged with priority `k`. -/
def RuleMatches (A : LexNFA) (k : Nat) (s : List Nat) : Prop :=
  ∃ q ig, Runs A A.start s q ∧ A.accept q = some (k, ig)

/-- A token produced by the scanner: rule id (or the error sentinel),
matched lexeme, and the 1-based line/column where the lexeme started. -/
structure Token where
  id : Int
  lexeme : List Nat
  line : Nat
  col : Nat
deriving DecidableEq

/-- Modelled from the spec: the sentinel id carried by lexical-error
tokens (the sandbox front end tests `token.id == -1` for error tokens). -/
def errorId : Int := -1

/-- Modelled from the spec: the inner scan loop.  Starting in DFA state `S`
with `k` bytes already consumed, walk one byte at a time, overwrite `best`
with `(k+1, metadata)` whenever the state just entered has accept metadata
(so later, longer matches overwrite earlier, shorter ones), and stop upon
reaching the dead state or the end of the input. -/
def scanGo (A : LexNFA) :
    Finset Nat → List Nat → Nat → Option (Nat × Nat × Bool) →
      Option (Nat × Nat × Bool)
  | _, [], _, best => best
  | S, b :: rest, k, best =>
    let T := dfaStep A S b
    if T = ∅ then best
    else scanGo A T rest (k + 1)
      (match dfaAccept A T with
       | some m => some (k + 1, m)
       | none => best)

/-- Modelled from the spec: one scanner step at the current offset.  Returns
the selected lexeme length together with the winning accept metadata, or a
length of one byte and no metadata when no accepting state was ever visited
(the lexical-error case). -/
def scanOnce (A : LexNFA) (input : List Nat) : Nat × Option (Nat × Bool) :=
  match scanGo A (dfaStart A) input 0 none with
  | some (len, m) => (len, some m)
  | none => (1, none)

/-- Modelled from the spec: line/column tracking.  A newline byte increments
the 1-based line number and resets the column to 1; every other byte
increments the column. -/
def advancePos (pos : Nat × Nat) (b : Nat) : Nat × Nat :=
  if b = 10 then (pos.1 + 1, 1) else (pos.1, pos.2 + 1)

/-- Modelled from the spec: the tokenization loop.  `fuel` bounds the number
of produced tokens; since every iteration consumes at least one byte, fuel
equal to the input length is always sufficient.  Ignored tokens are dropped
from the output unless `keep` is set, but their bytes still advance the
line/column position.  A lexical error emits a one-byte sentinel token and
scanning continues at the following offset. -/
def tokenizeGo (A : LexNFA) (keep : Bool) :
    Nat → List Nat → Nat × Nat → List Token
  | 0, _, _ => []
  | _, [], _ => []
  | fuel + 1, b :: rest, pos =>
    match scanOnce A (b :: rest) with
    | (len, some (p, ig)) =>
      let lex := (b :: rest).take len
      let tail :=
        tokenizeGo A keep fuel ((b :: rest).drop len) (lex.foldl advancePos pos)
      if keep || !ig then ⟨Int.ofNat p, lex, pos.1, pos.2⟩ :: tail else tail
    | (_, none) =>
      ⟨errorId, [b], pos.1, pos.2⟩ :: tokenizeGo A keep fuel rest (advancePos pos b)

/-- Modelled from the spec: `Tokenize` over a byte string, starting at
line 1, column 1. -/
def tokenize (A : LexNFA) (keep : Bool) (input : List Nat) : List Token :=
  tokenizeGo A keep input.length input (1, 1)

/-- Concatenation of the lexemes of a token sequence. -/
def concatLexemes (ts : List Token) : List Nat :=
  ts.foldr (fun t acc => t.lexeme ++ acc) []

/-- Modelled from the spec: an untagged per-rule NFA fragment, before the
NFA Builder merges the rules under one synthetic start state. -/
structure RawNFA where
  n : Nat
  start : Nat
  eps : Nat → Finset Nat
  bstep : Nat → Nat → Finset Nat
  acc : Nat → Bool

/-- Well-formedness of a per-rule fragment. -/
def RawWF (r : RawNFA) : Prop :=
  r.start < r.n ∧ (∀ q, r.eps q ⊆ Finset.range r.n) ∧
    (∀ q b, r.bstep q b ⊆ Finset.range r.n)

/-- Total number of states contributed by a rule list. -/
def sizeSum (rules : List (RawNFA × Bool)) : Nat :=
  (rules.map (fun r => r.1.n)).sum

/-- Shift a state set by an offset (used to renumber a rule's states into
its block of the merged NFA). -/
def shiftSet (off : Nat) (S : Finset Nat) : Finset Nat :=
  S.image (· + off)

/-- The (renumbered) start states of all rules, for the epsilon fan-out of
the synthetic root. -/
def ruleStarts : List (RawNFA × Bool) → Nat → Finset Nat
  | [], _ => ∅
  | (r, _) :: rest, off => insert (off + r.start) (ruleStarts rest (off + r.n))

/-- Epsilon successors inside the merged automaton: locate the block that
contains `q` and use that rule's own epsilon function. -/
def mergedEps : List (RawNFA × Bool) → Nat → Nat → Finset Nat
  | [], _, _ => ∅
  | (r, _) :: rest, off, q =>
    if off ≤ q ∧ q < off + r.n then shiftSet off (r.eps (q - off))
    else mergedEps rest (off + r.n) q

/-- Byte successors inside the merged automaton. -/
def mergedBStep : List (RawNFA × Bool) → Nat → Nat → Nat → Finset Nat
  | [], _, _, _ => ∅
  | (r, _) :: rest, off, q, b =>
    if off ≤ q ∧ q < off + r.n then shiftSet off (r.bstep (q - off) b)
    else mergedBStep rest (off + r.n) q b

/-- Accept metadata inside the merged automaton: a state accepting for the
rule at 0-based position `k` carries metadata `(k, ignore_k)`. -/
def mergedAccept : List (RawNFA × Bool) → Nat → Nat → Nat → Option (Nat × Bool)
  | [], _, _, _ => none
  | (r, ig) :: rest, k, off, q =>
    if off ≤ q ∧ q < off + r.n then
      (if r.acc (q - off) then some (k, ig) else none)
    else mergedAccept rest (k + 1) (off + r.n) q

/-- Modelled from the spec: the NFA Builder's union of the per-rule
fragments under one synthetic root (state 0) with epsilon edges to every
rule's start state; rule `k`'s accepting states are tagged with
`(k, ignore_k)`, where `k` is the rule's 0-based position in the list. -/
def mergeRules (rules : List (RawNFA × Bool)) : LexNFA where
  n := 1 + sizeSum rules
  start := 0
  eps := fun q => if q = 0 then ruleStarts rules 1 else mergedEps rules 1 q
  bstep := fun q b => if q = 0 then ∅ else mergedBStep rules 1 q b
  accept := fun q => if q = 0 then none else mergedAccept rules 0 1 q

/-! ### The compiled transition table (worklist subset construction) -/

/-- The 256 transition targets of one DFA state. -/
def transTargets (A : LexNFA) (S : Finset Nat) : List (Finset Nat) :=
  (List.range 256).map (fun b => dfaStep A S b)

/-- Modelled from the spec: the worklist of the DFA Builder's subset
construction.  `done` holds the states whose 256 transitions have been
filled in; `todo` the discovered but unprocessed states.  Returns `none`
only when the fuel runs out before the worklist empties. -/
def closeStates (A : LexNFA) :
    List (Finset Nat) → List (Finset Nat) → Nat → Option (List (Finset Nat))
  | done, [], _ => some done
  | _, _ :: _, 0 => none
  | done, S :: todo, fuel + 1 =>
    let fresh :=
      ((transTargets A S).filter
        (fun T => decide (T ∉ done ∧ T ∉ S :: todo))).dedup
    closeStates A (done ++ [S]) (todo ++ fresh) fuel

/-- Modelled from the spec: the compiled DFA state list, seeded with the
distinguished dead state and the DFA start state. -/
def buildStates (A : LexNFA) (fuel : Nat) : Option (List (Finset Nat)) :=
  closeStates A [] [∅, dfaStart A] fuel

/-! ### Concrete automata used as witnesses -/

/-- Modelled from the spec: the NFA fragment of the rule `INT="[0-9]+"`
(state 0 steps to state 1 on a digit, state 1 loops on digits and
accepts). -/
def rawDigitPlus : RawNFA where
  n := 2
  start := 0
  eps := fun _ => ∅
  bstep := fun q b => if (q = 0 ∨ q = 1) ∧ 48 ≤ b ∧ b ≤ 57 then {1} else ∅
  acc := fun q => q == 1

/-- The compiled automaton for the single rule `INT="[0-9]+"`. -/
def intNFA : LexNFA := mergeRules [(rawDigitPlus, false)]

/-- Modelled from the spec: the NFA fragment of the whitespace rule
`WS="[ \t\n]+"`. -/
def rawWS : RawNFA where
  n := 2
  start := 0
  eps := fun _ => ∅
  bstep := fun q b =>
    if (q = 0 ∨ q = 1) ∧ (b = 32 ∨ b = 9 ∨ b = 10) then {1} else ∅
  acc := fun q => q == 1

/-- The compiled automaton for the single ignored rule `WS="[ \t\n]+"`. -/
def wsNFA : LexNFA := mergeRules [(rawWS, true)]

/-- Modelled from the spec: the NFA fragment of the keyword rule
`KEYWORD="if"` (matches exactly the two bytes of "if"). -/
def rawKW : RawNFA where
  n := 3
  start := 0
  eps := fun _ => ∅
  bstep := fun q b =>
    if q = 0 ∧ b = 105 then {1} else if q = 1 ∧ b = 102 then {2} else ∅
  acc := fun q => q == 2

/-- Modelled from the spec: the NFA fragment of the identifier rule
`ID="[a-z]+"`. -/
def rawID : RawNFA where
  n := 2
  start := 0
  eps := fun _ => ∅
  bstep := fun q b => if (q = 0 ∨ q = 1) ∧ 97 ≤ b ∧ b ≤ 122 then {1} else ∅
  acc := fun q => q == 1

/-- The compiled automaton for the rule list `[KEYWORD="if", ID="[a-z]+"]`,
in which both rules match the input "if" with the same maximal length. -/
def kwIdNFA : LexNFA := mergeRules [(rawKW, false), (rawID, false)]

/-! ### The Emplex front end (translated from the sources) -/

/-- One row of the Emplex token table: token name, regular expression and
ignore flag (class `TokenInput` of the sources). -/
structure TokenInfo where
  name : String
  regex : String
  ignore : Bool
deriving DecidableEq

/-- The front-end state relevant to the modelled operations: the visible
table-row count (including the header row), the stored rule list, the
accumulated error messages and the rules loaded into the lexer. -/
structure EmplexState where
  numTableRows : Nat
  token_info : List TokenInfo
  errors : List String
  lexer : List (String × String × Bool)
deriving DecidableEq

/-- Modelled from the spec: `emp::String::OnlyIDChars` (the `String.hpp` in
the sources predates this member).  Per the validation diagnostic itself,
only letters, digits and underscore are allowed; like the other `Only...`
members it is vacuously true on the empty string. -/
def onlyIDChars (s : String) : Bool :=
  s.toList.all (fun c => c.isAlphanum || c == '_')

/-- The diagnostic format of `Emplex::Error`. -/
def errorMsg (line_num : Nat) (body : String) : String :=
  "Error (line " ++ toString line_num ++ ") - " ++ body

/-- The loop body of `Emplex::TestValidTable` (the 2024-2025 Emplex file),
threading the 0-based line counter, the set of names seen so far and the
accumulated error list.  `notes` stands for `emp::RegEx::GetNotes`, whose
implementation is not in the sources. -/
def testValidTableGo (notes : String → List String) :
    List TokenInfo → Nat → List String → List String → List String
  | [], _, _, errs => errs
  | t :: rest, line_num, seen, errs =>
    if t.name = "" ∧ t.regex = "" then
      testValidTableGo notes rest (line_num + 1) seen errs
    else if t.name = "" then
      testValidTableGo notes rest (line_num + 1) seen
        (errs ++ [errorMsg line_num ("No name provided for RegEx: " ++ t.regex)])
    else if t.regex = "" then
      testValidTableGo notes rest (line_num + 1) seen
        (errs ++ [errorMsg line_num ("No regex provided for token " ++ t.name)])
    else if ¬ onlyIDChars t.name then
      testValidTableGo notes rest (line_num + 1) seen
        (errs ++ [errorMsg line_num
          ("Invalid token name " ++ t.name ++ "; only letters, digits, and _ allowed.")])
    else if t.name ∈ seen then
      testValidTableGo notes rest (line_num + 1) seen
        (errs ++ [errorMsg line_num ("Multiple token types named " ++ t.name ++ ".")])
    else
      testValidTableGo notes rest (line_num + 1) (t.name :: seen)
        (errs ++ (notes t.regex).map
          (fun note => errorMsg line_num ("Invalid Regular expression: " ++ note)))

/-- `Emplex::TestValidTable`: clears the error list, validates every row of
the token table, stores the aggregated diagnostics and reports whether the
table is clean.  Only the `errors` member is written. -/
def testValidTable (notes : String → List String) (s : EmplexState) :
    EmplexState × Bool :=
  let errs := testValidTableGo notes s.token_info 0 [] []
  ({ s with errors := errs }, errs.isEmpty)

/-- The diagnostics contributed by a single rule, given the names seen in
earlier rules (used to state that `TestValidTable` aggregates the
diagnostics of every rule). -/
def ruleDiags (notes : String → List String) (seen : List String)
    (line_num : Nat) (t : TokenInfo) : List String :=
  if t.name = "" ∧ t.regex = "" then []
  else if t.name = "" then
    [errorMsg line_num ("No name provided for RegEx: " ++ t.regex)]
  else if t.regex = "" then
    [errorMsg line_num ("No regex provided for token " ++ t.name)]
  else if ¬ onlyIDChars t.name then
    [errorMsg line_num
      ("Invalid token name " ++ t.name ++ "; only letters, digits, and _ allowed.")]
  else if t.name ∈ seen then
    [errorMsg line_num ("Multiple token types named " ++ t.name ++ ".")]
  else
    (notes t.regex).map
      (fun note => errorMsg line_num ("Invalid Regular expression: " ++ note))

/-- The update of the seen-name set performed by one loop iteration of
`Emplex::TestValidTable` (a name is recorded only when it survives all the
name checks). -/
def seenUpdate (seen : List String) (t : TokenInfo) : List String :=
  if t.name = "" ∧ t.regex = "" then seen
  else if t.name = "" then seen
  else if t.regex = "" then seen
  else if ¬ onlyIDChars t.name then seen
  else if t.name ∈ seen then seen
  else t.name :: seen

/-- The concatenation of every rule's diagnostics, in table order. -/
def allDiags (notes : String → List String) :
    List TokenInfo → Nat → List String → List String
  | [], _, _ => []
  | t :: rest, line_num, seen =>
    ruleDiags notes seen line_num t ++
      allDiags notes rest (line_num + 1) (seenUpdate seen t)

/-- A rule is defective (relative to the names seen before it) when it is
not completely blank and fails one of the validation checks. -/
def RuleDefective (notes : String → List String) (seen : List String)
    (t : TokenInfo) : Prop :=
  ¬ (t.name = "" ∧ t.regex = "") ∧
    (t.name = "" ∨ t.regex = "" ∨ ¬ onlyIDChars t.name ∨ t.name ∈ seen ∨
      notes t.regex ≠ [])

/-- `Emplex::TestValidTable` of the older (2024) Emplex file: the line
counter is 1-based, no check short-circuits the later checks of the same
row, the name is inserted unconditionally and the regex notes are always
inspected. -/
def testValidTableGoV0 (notes : String → List String) :
    List TokenInfo → Nat → List String → List String → List String
  | [], _, _, errs => errs
  | t :: rest, line_num, seen, errs =>
    if t.name = "" ∧ t.regex = "" then
      testValidTableGoV0 notes rest (line_num + 1) seen errs
    else
      let e1 :=
        if t.name = "" then
          [errorMsg line_num ("No name provided for RegEx: " ++ t.regex)]
        else if t.regex = "" then
          [errorMsg line_num ("No regex provided for token " ++ t.name)]
        else []
      let e2 :=
        if ¬ onlyIDChars t.name then
          [errorMsg line_num
            ("Invalid token name " ++ t.name ++ "; only letters, digits, and _ allowed.")]
        else []
      let e3 :=
        if t.name ∈ seen then
          [errorMsg line_num ("Multiple token types named " ++ t.name ++ ".")]
        else []
      let e4 :=
        (notes t.regex).map
          (fun note => errorMsg line_num ("Invalid Regular expression: " ++ note))
      testValidTableGoV0 notes rest (line_num + 1) (t.name :: seen)
        (errs ++ e1 ++ e2 ++ e3 ++ e4)

/-- The error list computed by the older `TestValidTable` (its loop
pre-increments the line counter, so the first row is line 1). -/
def testValidTableErrsV0 (notes : String → List String)
    (l : List TokenInfo) : List String :=
  testValidTableGoV0 notes l 1 [] []

/-- `Emplex::GenerateLexer`: validate the table; on any diagnostic return
`false` at once (the lexer is left untouched), otherwise reset the lexer
and load every named rule, in order, via `AddToken`/`IgnoreToken`. -/
def generateLexer (notes : String → List String) (s : EmplexState) :
    EmplexState × Bool :=
  let r := testValidTable notes s
  if !r.2 then (r.1, false)
  else
    let lex := r.1.token_info.foldl
      (fun acc t => if t.name = "" then acc else acc ++ [(t.name, t.regex, t.ignore)])
      ([] : List (String × String × Bool))
    ({ r.1 with lexer := lex }, true)

/-- `MAX_TOKENS` of the Emplex front end. -/
def maxTokens : Nat := 100

/-- A freshly constructed blank table row. -/
def blankTokenInfo : TokenInfo := ⟨"", "", false⟩

/-- `Emplex::AddTableRow()`: the new row's token id is the current number
of table rows minus the header row; at `MAX_TOKENS` rows a warning is
issued (the returned flag) and the state is returned unchanged; otherwise a
table row is appended and, if the id is fresh, a blank `TokenInput` is
appended to the stored rule list. -/
def addTableRow (s : EmplexState) : EmplexState × Bool :=
  let token_id := s.numTableRows - 1
  if maxTokens ≤ token_id then (s, true)
  else
    ({ s with
        numTableRows := s.numTableRows + 1,
        token_info :=
          if token_id = s.token_info.length then s.token_info ++ [blankTokenInfo]
          else s.token_info }, false)

/-- A minimal merged automaton (one rule matching the single byte 97),
used to exercise the compiled-table construction on a concrete input. -/
def oneNFA : LexNFA where
  n := 2
  start := 0
  eps := fun _ => ∅
  bstep := fun q b => if q = 0 ∧ b = 97 then {1} else ∅
  accept := fun q => if q = 1 then some (0, false) else none

/-! ## Epsilon-closure: fixpoint and characterization -/

theorem epsExpand_subset (A : LexNFA) (X : Finset Nat) : X ⊆ epsExpand A X :=
  Finset.subset_union_left

theorem epsExpand_range (A : LexNFA) (hA : WFA A) (X : Finset Nat)
    (hX : X ⊆ Finset.range A.n) : epsExpand A X ⊆ Finset.range A.n := by
  intro q hq
  rcases Finset.mem_union.mp hq with h | h
  · exact hX h
  · rcases Finset.mem_biUnion.mp h with ⟨p, _, hpq⟩
    exact hA.2.1 p hpq

theorem epsExpand_iterate_range (A : LexNFA) (hA : WFA A) (X : Finset Nat)
    (hX : X ⊆ Finset.range A.n) (k : Nat) :
    (epsExpand A)^[k] X ⊆ Finset.range A.n := by
  induction k with
  | zero => simpa using hX
  | succ k ih =>
    rw [Function.iterate_succ_apply']
    exact epsExpand_range A hA _ ih

theorem epsExpand_iterate_mono (A : LexNFA) (X : Finset Nat) (k : Nat) :
    (epsExpand A)^[k] X ⊆ (epsExpand A)^[k + 1] X := by
  rw [Function.iterate_succ_apply']
  exact epsExpand_subset A _

theorem subset_epsClosure (A : LexNFA) (X : Finset Nat) : X ⊆ epsClosure A X := by
  unfold epsClosure
  have h : ∀ k, X ⊆ (epsExpand A)^[k] X := by
    intro k
    induction k with
    | zero => simp
    | succ k ih => exact ih.trans (epsExpand_iterate_mono A X k)
  exact h A.n

theorem epsExpand_empty (A : LexNFA) : epsExpand A ∅ = ∅ := by
  simp [epsExpand]

theorem epsClosure_empty (A : LexNFA) : epsClosure A ∅ = ∅ :=
  Function.iterate_fixed (epsExpand_empty A) A.n

theorem epsExpand_iterate_stab (A : LexNFA) (X : Finset Nat) (k : Nat)
    (h : epsExpand A ((epsExpand A)^[k] X) = (epsExpand A)^[k] X) :
    ∀ m, k ≤ m → (epsExpand A)^[m] X = (epsExpand A)^[k] X := by
  intro m hm
  induction m with
  | zero => simp [Nat.le_zero.mp hm]
  | succ m ih =>
    rcases Nat.lt_or_ge k (m + 1) with hlt | hge
    · have hkm : k ≤ m := Nat.lt_succ_iff.mp hlt
      rw [Function.iterate_succ_apply', ih hkm, h]
    · have : k = m + 1 := Nat.le_antisymm hm hge
      rw [this]

theorem epsClosure_fixed (A : LexNFA) (hA : WFA A) (X : Finset Nat)
    (hX : X ⊆ Finset.range A.n) :
    epsExpand A (epsClosure A X) = epsClosure A X := by
  unfold epsClosure
  by_contra hne
  have hstep : ∀ k, k ≤ A.n → epsExpand A ((epsExpand A)^[k] X) ≠ (epsExpand A)^[k] X := by
    intro k hk hfix
    exact hne (by
      rw [epsExpand_iterate_stab A X k hfix A.n hk, hfix])
  have hcard : ∀ k, k ≤ A.n → X.card + k ≤ ((epsExpand A)^[k] X).card := by
    intro k hk
    induction k with
    | zero => simp
    | succ k ih =>
      have hk' : k ≤ A.n := Nat.le_of_succ_le hk
      have hssub : (epsExpand A)^[k] X ⊂ (epsExpand A)^[k + 1] X := by
        refine lt_of_le_of_ne (epsExpand_iterate_mono A X k) ?_
        intro heq
        exact hstep k hk'
          (((Function.iterate_succ_apply' (epsExpand A) k X).symm).trans heq.symm)
      have := Finset.card_lt_card hssub
      omega
  have h1 : X.card + A.n ≤ ((epsExpand A)^[A.n] X).card := hcard A.n le_rfl
  have h2 : ((epsExpand A)^[A.n] X).card ≤ A.n := by
    have := Finset.card_le_card (epsExpand_iterate_range A hA X hX A.n)
    simpa using this
  have hX0 : X = ∅ := Finset.card_eq_zero.mp (by omega)
  subst hX0
  have hit : (epsExpand A)^[A.n] (∅ : Finset Nat) = ∅ :=
    Function.iterate_fixed (epsExpand_empty A) A.n
  exact hne (by rw [hit]; exact epsExpand_empty A)

theorem mem_epsClosure_of_reach (A : LexNFA) (hA : WFA A) (X : Finset Nat)
    (hX : X ⊆ Finset.range A.n) {p q : Nat} (hp : p ∈ X) (h : EpsReach A p q) :
    q ∈ epsClosure A X := by
  induction h with
  | refl => exact subset_epsClosure A X hp
  | tail _ hbc ih =>
    have hclosed := epsClosure_fixed A hA X hX
    rw [← hclosed]
    exact Finset.mem_union.mpr (Or.inr (Finset.mem_biUnion.mpr ⟨_, ih, hbc⟩))

theorem reach_of_mem_iterate (A : LexNFA) (X : Finset Nat) (k : Nat) :
    ∀ q, q ∈ (epsExpand A)^[k] X → ∃ p ∈ X, EpsReach A p q := by
  induction k with
  | zero => exact fun q hq => ⟨q, by simpa using hq, Relation.ReflTransGen.refl⟩
  | succ k ih =>
    intro q hq
    rw [Function.iterate_succ_apply'] at hq
    rcases Finset.mem_union.mp hq with h | h
    · exact ih q h
    · rcases Finset.mem_biUnion.mp h with ⟨y, hy, hqy⟩
      rcases ih y hy with ⟨p, hp, hreach⟩
      exact ⟨p, hp, hreach.tail hqy⟩

theorem reach_of_mem_epsClosure (A : LexNFA) (X : Finset Nat) {q : Nat}
    (h : q ∈ epsClosure A X) : ∃ p ∈ X, EpsReach A p q :=
  reach_of_mem_iterate A X A.n q h

theorem mem_epsClosure (A : LexNFA) (hA : WFA A) (X : Finset Nat)
    (hX : X ⊆ Finset.range A.n) (q : Nat) :
    q ∈ epsClosure A X ↔ ∃ p ∈ X, EpsReach A p q := by
  constructor
  · exact reach_of_mem_epsClosure A X
  · rintro ⟨p, hp, h⟩
    exact mem_epsClosure_of_reach A hA X hX hp h

/-! ## The subset-construction DFA vs. NFA runs -/

theorem byteSuccs_range (A : LexNFA) (hA : WFA A) (S : Finset Nat) (b : Nat) :
    byteSuccs A S b ⊆ Finset.range A.n := by
  intro q hq
  rcases Finset.mem_biUnion.mp hq with ⟨p, _, hpq⟩
  exact hA.2.2 p b hpq

theorem dfaStep_range (A : LexNFA) (hA : WFA A) (S : Finset Nat) (b : Nat) :
    dfaStep A S b ⊆ Finset.range A.n :=
  epsExpand_iterate_range A hA _ (byteSuccs_range A hA S b) A.n

theorem dfaStart_range (A : LexNFA) (hA : WFA A) :
    dfaStart A ⊆ Finset.range A.n :=
  epsExpand_iterate_range A hA _ (by simpa using hA.1) A.n

theorem dfaStep_closed (A : LexNFA) (hA : WFA A) (S : Finset Nat) (b : Nat) :
    epsExpand A (dfaStep A S b) = dfaStep A S b :=
  epsClosure_fixed A hA _ (byteSuccs_range A hA S b)

theorem dfaStart_closed (A : LexNFA) (hA : WFA A) :
    epsExpand A (dfaStart A) = dfaStart A :=
  epsClosure_fixed A hA _ (by simpa using hA.1)

theorem dfaStep_dead (A : LexNFA) (b : Nat) : dfaStep A ∅ b = ∅ := by
  have h : byteSuccs A ∅ b = ∅ := by simp [byteSuccs]
  unfold dfaStep
  rw [h]
  exact epsClosure_empty A

theorem foldl_dfaStep_dead (A : LexNFA) (l : List Nat) :
    l.foldl (dfaStep A) ∅ = ∅ := by
  induction l with
  | nil => rfl
  | cons b l ih => simpa [dfaStep_dead] using ih

theorem dfaAccept_dead (A : LexNFA) : dfaAccept A ∅ = none := by
  unfold dfaAccept
  simp

theorem epsReach_closed (A : LexNFA) (X : Finset Nat)
    (hX : epsExpand A X = X) {p q : Nat} (hp : p ∈ X) (h : EpsReach A p q) :
    q ∈ X := by
  induction h with
  | refl => exact hp
  | tail _ hbc ih =>
    rw [← hX]
    exact Finset.mem_union.mpr (Or.inr (Finset.mem_biUnion.mpr ⟨_, ih, hbc⟩))

theorem runs_of_epsReach (A : LexNFA) {p p' q : Nat} {s : List Nat}
    (h : EpsReach A p p') (hr : Runs A p' s q) : Runs A p s q := by
  cases hr with
  | nil h2 => exact Runs.nil (h.trans h2)
  | cons h1 h2 h3 => exact Runs.cons (h.trans h1) h2 h3

theorem mem_dfaStep (A : LexNFA) (hA : WFA A) (S : Finset Nat) (b q : Nat) :
    q ∈ dfaStep A S b ↔ ∃ p ∈ S, ∃ r ∈ A.bstep p b, EpsReach A r q := by
  unfold dfaStep
  rw [mem_epsClosure A hA _ (byteSuccs_range A hA S b)]
  constructor
  · rintro ⟨r, hr, hreach⟩
    rcases Finset.mem_biUnion.mp hr with ⟨p, hp, hpr⟩
    exact ⟨p, hp, r, hpr, hreach⟩
  · rintro ⟨p, hp, r, hpr, hreach⟩
    exact ⟨r, Finset.mem_biUnion.mpr ⟨p, hp, hpr⟩, hreach⟩

theorem mem_foldl_dfaStep (A : LexNFA) (hA : WFA A) (s : List Nat) :
    ∀ X : Finset Nat, X ⊆ Finset.range A.n → epsExpand A X = X →
      ∀ q, q ∈ s.foldl (dfaStep A) X ↔ ∃ p ∈ X, Runs A p s q := by
  induction s with
  | nil =>
    intro X _ hclosed q
    constructor
    · exact fun hq => ⟨q, hq, Runs.nil Relation.ReflTransGen.refl⟩
    · rintro ⟨p, hp, hr⟩
      cases hr with
      | nil h => exact epsReach_closed A X hclosed hp h
  | cons b s ih =>
    intro X hX hclosed q
    have hstep := ih (dfaStep A X b) (dfaStep_range A hA X b) (dfaStep_closed A hA X b) q
    simp only [List.foldl_cons]
    rw [hstep]
    constructor
    · rintro ⟨r', hr', hruns⟩
      rcases (mem_dfaStep A hA X b r').mp hr' with ⟨p, hp, r, hpr, hreach⟩
      exact ⟨p, hp, Runs.cons Relation.ReflTransGen.refl hpr
        (runs_of_epsReach A hreach hruns)⟩
    · rintro ⟨p, hp, hruns⟩
      cases hruns with
      | cons h1 h2 h3 =>
        refine ⟨_, ?_, h3⟩
        exact subset_epsClosure A _ (Finset.mem_biUnion.mpr
          ⟨_, epsReach_closed A X hclosed hp h1, h2⟩)

theorem mem_dfaRun (A : LexNFA) (hA : WFA A) (s : List Nat) (q : Nat) :
    q ∈ dfaRun A s ↔ Runs A A.start s q := by
  unfold dfaRun
  rw [mem_foldl_dfaStep A hA s (dfaStart A) (dfaStart_range A hA)
    (dfaStart_closed A hA) q]
  constructor
  · rintro ⟨p, hp, hruns⟩
    rcases reach_of_mem_epsClosure A _ hp with ⟨p0, hp0, hreach⟩
    have : p0 = A.start := by simpa using hp0
    subst this
    exact runs_of_epsReach A hreach hruns
  · intro h
    exact ⟨A.start, subset_epsClosure A _ (by simp), h⟩

theorem dfaRun_range (A : LexNFA) (hA : WFA A) (s : List Nat) :
    dfaRun A s ⊆ Finset.range A.n := by
  unfold dfaRun
  induction s using List.reverseRecOn with
  | nil => exact dfaStart_range A hA
  | append_singleton s b _ =>
    rw [List.foldl_append]
    exact dfaStep_range A hA _ b

theorem dfaRun_append (A : LexNFA) (s : List Nat) (b : Nat) :
    dfaRun A (s ++ [b]) = dfaStep A (dfaRun A s) b := by
  unfold dfaRun
  rw [List.foldl_append]
  rfl

/-! ## The accept metadata of a DFA state -/


theorem pickAccept_none_iff (A : LexNFA) (init : Option (Nat × Bool)) (q : Nat) :
    pickAccept A init q = none ↔ init = none ∧ A.accept q = none := by
  unfold pickAccept
  rcases h : A.accept q with _ | m
  · simp
  · rcases init with _ | m' <;> simp
    split <;> simp

theorem foldl_pickAccept_none (A : LexNFA) :
    ∀ (l : List Nat) (init : Option (Nat × Bool)),
      l.foldl (pickAccept A) init = none ↔
        init = none ∧ ∀ q ∈ l, A.accept q = none := by
  intro l
  induction l with
  | nil => simp
  | cons q l ih =>
    intro init
    rw [List.foldl_cons, ih, pickAccept_none_iff]
    constructor
    · rintro ⟨⟨h1, h2⟩, h3⟩
      refine ⟨h1, fun r hr => ?_⟩
      rcases List.mem_cons.mp hr with rfl | hr
      · exact h2
      · exact h3 r hr
    · rintro ⟨h1, h2⟩
      exact ⟨⟨h1, h2 q (List.mem_cons_self q l)⟩,
        fun r hr => h2 r (List.mem_cons_of_mem q hr)⟩

theorem foldl_pickAccept_mono (A : LexNFA) :
    ∀ (l : List Nat) (m0 : Nat × Bool),
      ∃ m, l.foldl (pickAccept A) (some m0) = some m ∧ m.1 ≤ m0.1 := by
  intro l
  induction l with
  | nil => exact fun m0 => ⟨m0, rfl, le_rfl⟩
  | cons q l ih =>
    intro m0
    rw [List.foldl_cons]
    have hone : ∃ m1, pickAccept A (some m0) q = some m1 ∧ m1.1 ≤ m0.1 := by
      unfold pickAccept
      rcases A.accept q with _ | m2
      · exact ⟨m0, rfl, le_rfl⟩
      · dsimp only
        split
        · next hlt => exact ⟨m2, rfl, Nat.le_of_lt hlt⟩
        · exact ⟨m0, rfl, le_rfl⟩
    rcases hone with ⟨m1, hm1, hle1⟩
    rcases ih m1 with ⟨m, hm, hle⟩
    exact ⟨m, by rw [hm1, hm], hle.trans hle1⟩

theorem foldl_pickAccept_le (A : LexNFA) :
    ∀ (l : List Nat) (init : Option (Nat × Bool)) (m : Nat × Bool),
      l.foldl (pickAccept A) init = some m →
        ∀ q ∈ l, ∀ p ig, A.accept q = some (p, ig) → m.1 ≤ p := by
  intro l
  induction l with
  | nil => simp
  | cons r l ih =>
    intro init m hfold q hq p ig hacc
    rw [List.foldl_cons] at hfold
    rcases List.mem_cons.mp hq with rfl | hq
    · have hone : ∃ m1 : Nat × Bool, pickAccept A init q = some m1 ∧ m1.1 ≤ p := by
        unfold pickAccept
        rw [hacc]
        rcases init with _ | m'
        · exact ⟨(p, ig), rfl, le_rfl⟩
        · dsimp only
          split
          · exact ⟨(p, ig), rfl, le_rfl⟩
          · next hnlt => exact ⟨m', rfl, Nat.le_of_not_lt hnlt⟩
      rcases hone with ⟨m1, hm1, hle1⟩
      rw [hm1] at hfold
      rcases foldl_pickAccept_mono A l m1 with ⟨m2, hm2, hle2⟩
      rw [hfold] at hm2
      cases hm2
      exact hle2.trans hle1
    · exact ih (pickAccept A init r) m hfold q hq p ig hacc

theorem foldl_pickAccept_mem (A : LexNFA) :
    ∀ (l : List Nat) (init : Option (Nat × Bool)) (m : Nat × Bool),
      l.foldl (pickAccept A) init = some m →
        init = some m ∨ ∃ q ∈ l, A.accept q = some m := by
  intro l
  induction l with
  | nil => exact fun init m h => Or.inl h
  | cons q l ih =>
    intro init m hfold
    rw [List.foldl_cons] at hfold
    rcases ih (pickAccept A init q) m hfold with h | ⟨r, hr, hacc⟩
    · unfold pickAccept at h
      rcases hq : A.accept q with _ | m2 <;> rw [hq] at h
      · exact Or.inl h
      · rcases init with _ | m'
        · cases h
          exact Or.inr ⟨q, List.mem_cons_self q l, hq⟩
        · dsimp only at h
          split at h
          · cases h
            exact Or.inr ⟨q, List.mem_cons_self q l, hq⟩
          · exact Or.inl h
    · exact Or.inr ⟨r, List.mem_cons_of_mem q hr, hacc⟩

theorem mem_acceptList (A : LexNFA) (S : Finset Nat) (hS : S ⊆ Finset.range A.n)
    (q : Nat) : q ∈ (List.range A.n).filter (fun r => r ∈ S) ↔ q ∈ S := by
  simp only [List.mem_filter, List.mem_range, decide_eq_true_eq]
  constructor
  · exact fun h => h.2
  · exact fun h => ⟨by simpa using hS h, h⟩

theorem dfaAccept_none_iff (A : LexNFA) (S : Finset Nat)
    (hS : S ⊆ Finset.range A.n) :
    dfaAccept A S = none ↔ ∀ q ∈ S, A.accept q = none := by
  unfold dfaAccept
  rw [foldl_pickAccept_none]
  constructor
  · rintro ⟨_, h⟩ q hq
    exact h q ((mem_acceptList A S hS q).mpr hq)
  · intro h
    exact ⟨rfl, fun q hq => h q ((mem_acceptList A S hS q).mp hq)⟩

theorem dfaAccept_min (A : LexNFA) (S : Finset Nat)
    (hS : S ⊆ Finset.range A.n) {q p : Nat} {ig : Bool}
    (hq : q ∈ S) (hacc : A.accept q = some (p, ig)) :
    ∃ m, dfaAccept A S = some m ∧ m.1 ≤ p := by
  rcases hfold : dfaAccept A S with _ | m
  · rw [dfaAccept_none_iff A S hS] at hfold
    rw [hfold q hq] at hacc
    cases hacc
  · refine ⟨m, rfl, ?_⟩
    unfold dfaAccept at hfold
    exact foldl_pickAccept_le A _ none m hfold q
      ((mem_acceptList A S hS q).mpr hq) p ig hacc

theorem dfaAccept_mem (A : LexNFA) (S : Finset Nat) {m : Nat × Bool}
    (h : dfaAccept A S = some m) : ∃ q ∈ S, A.accept q = some m := by
  unfold dfaAccept at h
  rcases foldl_pickAccept_mem A _ none m h with h | ⟨q, hq, hacc⟩
  · cases h
  · refine ⟨q, ?_, hacc⟩
    rcases List.mem_filter.mp hq with ⟨_, h2⟩
    simpa using h2

theorem dfaAccept_ne_none (A : LexNFA) (S : Finset Nat)
    (hS : S ⊆ Finset.range A.n) {q p : Nat} {ig : Bool}
    (hq : q ∈ S) (hacc : A.accept q = some (p, ig)) :
    dfaAccept A S ≠ none := by
  rcases dfaAccept_min A S hS hq hacc with ⟨m, hm, _⟩
  rw [hm]
  exact Option.some_ne_none m

/-! ## The scan loop: soundness and maximality -/

theorem scanGo_good (A : LexNFA) :
    ∀ (rest pre : List Nat) (best : Option (Nat × Nat × Bool)),
      (best = none ∨ ∃ j m, best = some (j, m) ∧ 0 < j ∧ j ≤ pre.length ∧
          dfaAccept A (dfaRun A (pre.take j)) = some m) →
      (scanGo A (dfaRun A pre) rest pre.length best = none ∨
        ∃ len m, scanGo A (dfaRun A pre) rest pre.length best = some (len, m) ∧
          0 < len ∧ len ≤ pre.length + rest.length ∧
          dfaAccept A (dfaRun A ((pre ++ rest).take len)) = some m) := by
  intro rest
  induction rest with
  | nil =>
    intro pre best hb
    rcases hb with hb | ⟨j, m, hb, hj0, hjle, hacc⟩
    · left
      simpa [scanGo] using hb
    · right
      exact ⟨j, m, by simpa [scanGo] using hb, hj0, by simpa using hjle,
        by simpa using hacc⟩
  | cons b rest ih =>
    intro pre best hb
    have hT : dfaStep A (dfaRun A pre) b = dfaRun A (pre ++ [b]) :=
      (dfaRun_append A pre b).symm
    by_cases hdead : dfaStep A (dfaRun A pre) b = ∅
    · rcases hb with hb | ⟨j, m, hb, hj0, hjle, hacc⟩
      · left
        simpa [scanGo, hdead] using hb
      · right
        refine ⟨j, m, by simpa [scanGo, hdead] using hb, hj0, by simp; omega, ?_⟩
        rw [List.take_append_of_le_length hjle]
        exact hacc
    · have hunfold : scanGo A (dfaRun A pre) (b :: rest) pre.length best =
          scanGo A (dfaRun A (pre ++ [b])) rest (pre.length + 1)
            (match dfaAccept A (dfaRun A (pre ++ [b])) with
             | some m => some (pre.length + 1, m)
             | none => best) := by
        rw [scanGo]
        simp only [hT] at hdead ⊢
        rw [if_neg hdead]
      rw [hunfold]
      have hgood : (match dfaAccept A (dfaRun A (pre ++ [b])) with
             | some m => some (pre.length + 1, m)
             | none => best) = none ∨
          ∃ j m, (match dfaAccept A (dfaRun A (pre ++ [b])) with
             | some m => some (pre.length + 1, m)
             | none => best) = some (j, m) ∧ 0 < j ∧ j ≤ (pre ++ [b]).length ∧
            dfaAccept A (dfaRun A ((pre ++ [b]).take j)) = some m := by
        rcases hacc : dfaAccept A (dfaRun A (pre ++ [b])) with _ | m
        · rcases hb with hb | ⟨j, m, hb, hj0, hjle, hbacc⟩
          · left
            simpa using hb
          · right
            refine ⟨j, m, by simpa using hb, hj0, by simp; omega, ?_⟩
            rwa [List.take_append_of_le_length hjle]
        · right
          refine ⟨pre.length + 1, m, by simp, Nat.succ_pos _, by simp, ?_⟩
          rw [show pre.length + 1 = (pre ++ [b]).length by simp,
            List.take_length (pre ++ [b])]
          exact hacc
      have ihinst := ih (pre ++ [b]) _ hgood
      simp only [List.length_append, List.length_singleton] at ihinst
      rcases ihinst with h | ⟨len, m, heq, h0, hle, hacc⟩
      · left
        exact h
      · right
        refine ⟨len, m, heq, h0, ?_, ?_⟩
        · simp only [List.length_cons]
          omega
        · rwa [List.append_assoc, List.singleton_append] at hacc

theorem scanGo_lb (A : LexNFA) :
    ∀ (rest : List Nat) (S : Finset Nat) (k j0 : Nat) (m0 : Nat × Bool),
      j0 ≤ k + 1 →
      ∃ len m, scanGo A S rest k (some (j0, m0)) = some (len, m) ∧ j0 ≤ len := by
  intro rest
  induction rest with
  | nil =>
    intro S k j0 m0 _
    exact ⟨j0, m0, rfl, le_rfl⟩
  | cons b rest ih =>
    intro S k j0 m0 hj
    by_cases hdead : dfaStep A S b = ∅
    · exact ⟨j0, m0, by simp [scanGo, hdead], le_rfl⟩
    · rcases hacc : dfaAccept A (dfaStep A S b) with _ | m
      · rcases ih (dfaStep A S b) (k + 1) j0 m0 (hj.trans (Nat.le_succ _)) with
          ⟨len, m, heq, hlen⟩
        exact ⟨len, m, by rw [scanGo]; simp only [hdead, if_false, hacc]; exact heq, hlen⟩
      · rcases ih (dfaStep A S b) (k + 1) (k + 1) m (Nat.le_succ _) with
          ⟨len, m', heq, hlen⟩
        exact ⟨len, m', by rw [scanGo]; simp only [hdead, if_false, hacc]; exact heq,
          hj.trans hlen⟩

theorem scanGo_ge (A : LexNFA) :
    ∀ (rest pre : List Nat) (best : Option (Nat × Nat × Bool)) (j : Nat),
      pre.length < j → j ≤ pre.length + rest.length →
      dfaAccept A (dfaRun A ((pre ++ rest).take j)) ≠ none →
      ∃ len m, scanGo A (dfaRun A pre) rest pre.length best = some (len, m) ∧
        j ≤ len := by
  intro rest
  induction rest with
  | nil =>
    intro pre best j h1 h2 _
    simp at h2
    omega
  | cons b rest ih =>
    intro pre best j h1 h2 hne
    have hT : dfaStep A (dfaRun A pre) b = dfaRun A (pre ++ [b]) :=
      (dfaRun_append A pre b).symm
    by_cases hdead : dfaStep A (dfaRun A pre) b = ∅
    · exfalso
      apply hne
      have hsplit : (pre ++ b :: rest).take j =
          (pre ++ [b]) ++ rest.take (j - (pre.length + 1)) := by
        rw [List.append_cons, List.take_append_eq_append_take,
          List.take_of_length_le (by simp; omega)]
        simp
      rw [hsplit]
      have hrun : dfaRun A ((pre ++ [b]) ++ rest.take (j - (pre.length + 1))) = ∅ := by
        unfold dfaRun
        rw [List.foldl_append]
        have hbase : List.foldl (dfaStep A) (dfaStart A) (pre ++ [b]) = ∅ := by
          have := dfaRun_append A pre b
          unfold dfaRun at this
          rw [this]
          exact hdead
        rw [hbase]
        exact foldl_dfaStep_dead A _
      rw [hrun]
      exact dfaAccept_dead A
    · have hunfold : scanGo A (dfaRun A pre) (b :: rest) pre.length best =
          scanGo A (dfaRun A (pre ++ [b])) rest (pre.length + 1)
            (match dfaAccept A (dfaRun A (pre ++ [b])) with
             | some m => some (pre.length + 1, m)
             | none => best) := by
        rw [scanGo]
        simp only [hT] at hdead ⊢
        rw [if_neg hdead]
      rcases Nat.lt_or_ge (pre.length + 1) j with hgt | hle
      · have ihinst := ih (pre ++ [b])
            (match dfaAccept A (dfaRun A (pre ++ [b])) with
             | some m => some (pre.length + 1, m)
             | none => best) j (by simpa using hgt) (by simp at h2 ⊢; omega)
            (by rwa [List.append_assoc, List.singleton_append])
        simp only [List.length_append, List.length_singleton] at ihinst
        rcases ihinst with ⟨len, m, heq, hlen⟩
        exact ⟨len, m, by rw [hunfold]; exact heq, hlen⟩
      · have hj : j = pre.length + 1 := Nat.le_antisymm hle h1
        subst hj
        have htake : (pre ++ b :: rest).take (pre.length + 1) = pre ++ [b] := by
          rw [List.append_cons, List.take_append_of_le_length (by simp),
            List.take_of_length_le (by simp)]
        rw [htake] at hne
        rcases hacc : dfaAccept A (dfaRun A (pre ++ [b])) with _ | m
        · exact absurd hacc hne
        · rcases scanGo_lb A rest (dfaRun A (pre ++ [b])) (pre.length + 1)
              (pre.length + 1) m (by omega) with ⟨len, m', heq, hlen⟩
          refine ⟨len, m', ?_, hlen⟩
          rw [hunfold]
          simp only [hacc]
          exact heq

theorem scanOnce_some (A : LexNFA) (input : List Nat) (len : Nat) (m : Nat × Bool)
    (h : scanOnce A input = (len, some m)) :
    0 < len ∧ len ≤ input.length ∧
      dfaAccept A (dfaRun A (input.take len)) = some m := by
  unfold scanOnce at h
  rcases hgo : scanGo A (dfaStart A) input 0 none with _ | lm
  · rw [hgo] at h
    cases h
  · rw [hgo] at h
    have hpre : dfaRun A ([] : List Nat) = dfaStart A := rfl
    have hgood := scanGo_good A input [] none (Or.inl rfl)
    rw [hpre] at hgood
    simp only [List.length_nil, List.nil_append] at hgood
    rcases hgood with hnone | ⟨len', m', heq, h0, hle, hacc⟩
    · rw [hgo] at hnone
      cases hnone
    · rw [hgo] at heq
      cases heq
      cases h
      exact ⟨h0, by simpa using hle, by simpa using hacc⟩

theorem scanOnce_maximal (A : LexNFA) (input : List Nat) (len : Nat)
    (mo : Option (Nat × Bool)) (h : scanOnce A input = (len, mo)) :
    ∀ j, len < j → j ≤ input.length →
      dfaAccept A (dfaRun A (input.take j)) = none := by
  intro j hj hjle
  by_contra hne
  have hpre : dfaRun A ([] : List Nat) = dfaStart A := rfl
  rcases scanGo_ge A input [] none j (by simp; omega) (by simpa using hjle)
      (by simpa using hne) with ⟨len2, m2, heq, hlen2⟩
  rw [hpre] at heq
  unfold scanOnce at h
  rw [show ([] : List Nat).length = 0 from rfl] at heq
  rw [heq] at h
  cases h
  omega

theorem scanOnce_error (A : LexNFA) (input : List Nat) (len : Nat)
    (h : scanOnce A input = (len, none)) :
    len = 1 ∧ ∀ j, 0 < j → j ≤ input.length →
      dfaAccept A (dfaRun A (input.take j)) = none := by
  have hlen : len = 1 := by
    unfold scanOnce at h
    rcases hgo : scanGo A (dfaStart A) input 0 none with _ | lm
    · rw [hgo] at h
      cases h
      rfl
    · rw [hgo] at h
      cases h
  refine ⟨hlen, fun j hj hjle => ?_⟩
  by_contra hne
  have hpre : dfaRun A ([] : List Nat) = dfaStart A := rfl
  rcases scanGo_ge A input [] none j (by simpa using hj) (by simpa using hjle)
      (by simpa using hne) with ⟨len2, m2, heq, _⟩
  rw [hpre, show ([] : List Nat).length = 0 from rfl] at heq
  unfold scanOnce at h
  rw [heq] at h
  cases h

/-! ## Rule matching vs. the accept metadata of the reached DFA state -/

theorem ruleMatches_iff (A : LexNFA) (hA : WFA A) (k : Nat) (s : List Nat) :
    RuleMatches A k s ↔ ∃ q ∈ dfaRun A s, ∃ ig, A.accept q = some (k, ig) := by
  unfold RuleMatches
  constructor
  · rintro ⟨q, ig, hruns, hacc⟩
    exact ⟨q, (mem_dfaRun A hA s q).mpr hruns, ig, hacc⟩
  · rintro ⟨q, hq, ig, hacc⟩
    exact ⟨q, ig, (mem_dfaRun A hA s q).mp hq, hacc⟩

theorem no_match_of_accept_none (A : LexNFA) (hA : WFA A) (s : List Nat)
    (h : dfaAccept A (dfaRun A s) = none) (k : Nat) : ¬ RuleMatches A k s := by
  intro hm
  rcases (ruleMatches_iff A hA k s).mp hm with ⟨q, hq, ig, hacc⟩
  rw [(dfaAccept_none_iff A _ (dfaRun_range A hA s)).mp h q hq] at hacc
  cases hacc

/-! ## Tokenization: round trip and token ids -/

theorem tokenizeGo_lexemes (A : LexNFA) :
    ∀ (fuel : Nat) (input : List Nat) (pos : Nat × Nat),
      input.length ≤ fuel →
      concatLexemes (tokenizeGo A true fuel input pos) = input := by
  intro fuel
  induction fuel with
  | zero =>
    intro input pos hlen
    have : input = [] := List.eq_nil_of_length_eq_zero (Nat.le_zero.mp hlen)
    subst this
    rfl
  | succ fuel ih =>
    intro input pos hlen
    rcases input with _ | ⟨b, rest⟩
    · rfl
    · rcases hscan : scanOnce A (b :: rest) with ⟨len, mo⟩
      rcases mo with _ | ⟨p, ig⟩
      · have : tokenizeGo A true (fuel + 1) (b :: rest) pos =
            ⟨errorId, [b], pos.1, pos.2⟩ ::
              tokenizeGo A true fuel rest (advancePos pos b) := by
          rw [tokenizeGo, hscan]
        rw [this]
        have hr : concatLexemes (tokenizeGo A true fuel rest (advancePos pos b)) =
            rest := ih rest _ (by simp only [List.length_cons] at hlen; omega)
        simp [concatLexemes] at hr ⊢
        exact hr
      · have h0 : 0 < len := (scanOnce_some A (b :: rest) len (p, ig) hscan).1
        have : tokenizeGo A true (fuel + 1) (b :: rest) pos =
            ⟨Int.ofNat p, (b :: rest).take len, pos.1, pos.2⟩ ::
              tokenizeGo A true fuel ((b :: rest).drop len)
                (((b :: rest).take len).foldl advancePos pos) := by
          rw [tokenizeGo, hscan]
          simp
        rw [this]
        have hr := ih ((b :: rest).drop len)
          (((b :: rest).take len).foldl advancePos pos)
          (by
            rw [List.length_drop]
            simp only [List.length_cons] at hlen ⊢
            omega)
        simp [concatLexemes] at hr ⊢
        rw [hr]
        exact List.take_append_drop len (b :: rest)

theorem tokenizeGo_ids (A : LexNFA) (hA : WFA A) (N : Nat)
    (hN : ∀ q p ig, A.accept q = some (p, ig) → p < N) :
    ∀ (fuel : Nat) (keep : Bool) (input : List Nat) (pos : Nat × Nat)
      (t : Token), t ∈ tokenizeGo A keep fuel input pos →
      (t.id = errorId ∧ t.lexeme.length = 1) ∨
      (∃ k, k < N ∧ t.id = Int.ofNat k ∧ RuleMatches A k t.lexeme) := by
  intro fuel
  induction fuel with
  | zero =>
    intro keep input pos t ht
    simp [tokenizeGo] at ht
  | succ fuel ih =>
    intro keep input pos t ht
    rcases input with _ | ⟨b, rest⟩
    · simp [tokenizeGo] at ht
    · rcases hscan : scanOnce A (b :: rest) with ⟨len, mo⟩
      rcases mo with _ | ⟨p, ig⟩
      · rw [tokenizeGo, hscan] at ht
        rcases List.mem_cons.mp ht with rfl | ht
        · exact Or.inl ⟨rfl, rfl⟩
        · exact ih keep rest _ t ht
      · rw [tokenizeGo, hscan] at ht
        simp only at ht
        have hmain : t = (⟨Int.ofNat p, (b :: rest).take len, pos.1, pos.2⟩ : Token) ∨
            t ∈ tokenizeGo A keep fuel ((b :: rest).drop len)
              (((b :: rest).take len).foldl advancePos pos) := by
          by_cases hk : (keep || !ig) = true
          · rw [if_pos hk] at ht
            exact List.mem_cons.mp ht
          · rw [if_neg hk] at ht
            exact Or.inr ht
        rcases hmain with rfl | ht'
        · right
          have hsome := scanOnce_some A (b :: rest) len (p, ig) hscan
          rcases dfaAccept_mem A _ hsome.2.2 with ⟨q, hq, hacc⟩
          refine ⟨p, hN q p ig hacc, rfl, ?_⟩
          exact (ruleMatches_iff A hA p _).mpr ⟨q, hq, ig, hacc⟩
        · exact ih keep _ _ t ht'

/-! ## The merged NFA of an ordered rule list -/

theorem sizeSum_cons (r : RawNFA) (ig : Bool) (rest : List (RawNFA × Bool)) :
    sizeSum ((r, ig) :: rest) = r.n + sizeSum rest := by
  simp [sizeSum]

theorem shiftSet_range (off n : Nat) (S : Finset Nat) (h : S ⊆ Finset.range n) :
    shiftSet off S ⊆ Finset.range (off + n) := by
  intro x hx
  rcases Finset.mem_image.mp hx with ⟨a, ha, rfl⟩
  have := Finset.mem_range.mp (h ha)
  exact Finset.mem_range.mpr (by omega)

theorem ruleStarts_range (rules : List (RawNFA × Bool))
    (h : ∀ x ∈ rules, x.1.start < x.1.n) :
    ∀ off, ruleStarts rules off ⊆ Finset.range (off + sizeSum rules) := by
  induction rules with
  | nil => intro off; simp [ruleStarts]
  | cons x rest ih =>
    intro off
    rcases x with ⟨r, ig⟩
    rw [ruleStarts]
    intro y hy
    rcases Finset.mem_insert.mp hy with rfl | hy
    · have := h (r, ig) (List.mem_cons_self _ _)
      simp only at this
      exact Finset.mem_range.mpr (by rw [sizeSum_cons]; omega)
    · have := ih (fun x hx => h x (List.mem_cons_of_mem _ hx)) (off + r.n) hy
      rw [sizeSum_cons]
      exact Finset.range_subset.mpr (by omega) this

theorem mergedEps_range (rules : List (RawNFA × Bool))
    (h : ∀ x ∈ rules, ∀ q, x.1.eps q ⊆ Finset.range x.1.n) :
    ∀ off q, mergedEps rules off q ⊆ Finset.range (off + sizeSum rules) := by
  induction rules with
  | nil => intro off q; simp [mergedEps]
  | cons x rest ih =>
    intro off q
    rcases x with ⟨r, ig⟩
    rw [mergedEps]
    split
    · refine (shiftSet_range off r.n _ (h (r, ig) (List.mem_cons_self _ _) _)).trans ?_
      exact Finset.range_subset.mpr (by rw [sizeSum_cons]; omega)
    · refine (ih (fun x hx => h x (List.mem_cons_of_mem _ hx)) (off + r.n) q).trans ?_
      exact Finset.range_subset.mpr (by rw [sizeSum_cons]; omega)

theorem mergedBStep_range (rules : List (RawNFA × Bool))
    (h : ∀ x ∈ rules, ∀ q b, x.1.bstep q b ⊆ Finset.range x.1.n) :
    ∀ off q b, mergedBStep rules off q b ⊆ Finset.range (off + sizeSum rules) := by
  induction rules with
  | nil => intro off q b; simp [mergedBStep]
  | cons x rest ih =>
    intro off q b
    rcases x with ⟨r, ig⟩
    rw [mergedBStep]
    split
    · refine (shiftSet_range off r.n _ (h (r, ig) (List.mem_cons_self _ _) _ _)).trans ?_
      exact Finset.range_subset.mpr (by rw [sizeSum_cons]; omega)
    · refine (ih (fun x hx => h x (List.mem_cons_of_mem _ hx)) (off + r.n) q b).trans ?_
      exact Finset.range_subset.mpr (by rw [sizeSum_cons]; omega)

theorem WFA_mergeRules (rules : List (RawNFA × Bool))
    (h : ∀ x ∈ rules, RawWF x.1) : WFA (mergeRules rules) := by
  refine ⟨?_, ?_, ?_⟩
  · show 0 < 1 + sizeSum rules
    omega
  · intro q
    show (if q = 0 then ruleStarts rules 1 else mergedEps rules 1 q) ⊆
      Finset.range (1 + sizeSum rules)
    split
    · exact ruleStarts_range rules (fun x hx => (h x hx).1) 1
    · exact mergedEps_range rules (fun x hx => (h x hx).2.1) 1 q
  · intro q b
    show (if q = 0 then ∅ else mergedBStep rules 1 q b) ⊆
      Finset.range (1 + sizeSum rules)
    split
    · simp
    · exact mergedBStep_range rules (fun x hx => (h x hx).2.2) 1 q b

theorem mergedAccept_lt (rules : List (RawNFA × Bool)) :
    ∀ (k off q p : Nat) (ig : Bool),
      mergedAccept rules k off q = some (p, ig) → p < k + rules.length := by
  induction rules with
  | nil => intro k off q p ig h; simp [mergedAccept] at h
  | cons x rest ih =>
    intro k off q p ig h
    rcases x with ⟨r, rig⟩
    rw [mergedAccept] at h
    split at h
    · split at h
      · cases h
        simp
      · cases h
    · have := ih (k + 1) (off + r.n) q p ig h
      simp only [List.length_cons]
      omega

theorem mergeRules_accept_lt (rules : List (RawNFA × Bool)) (q p : Nat) (ig : Bool)
    (h : (mergeRules rules).accept q = some (p, ig)) : p < rules.length := by
  have h' : (if q = 0 then none else mergedAccept rules 0 1 q) = some (p, ig) := h
  split at h'
  · cases h'
  · simpa using mergedAccept_lt rules 0 1 q p ig h'

/-! ## The compiled state table is closed under transitions -/

theorem mem_fresh_iff (A : LexNFA) (S : Finset Nat)
    (done todo : List (Finset Nat)) (T : Finset Nat) :
    T ∈ ((transTargets A S).filter
        (fun T => decide (T ∉ done ∧ T ∉ S :: todo))).dedup ↔
      T ∈ transTargets A S ∧ T ∉ done ∧ T ∉ S :: todo := by
  rw [List.mem_dedup, List.mem_filter]
  simp

theorem closeStates_spec (A : LexNFA) :
    ∀ (fuel : Nat) (done todo out : List (Finset Nat)),
      (∀ S ∈ done, ∀ T ∈ transTargets A S, T ∈ done ∨ T ∈ todo) →
      closeStates A done todo fuel = some out →
      (∀ x, x ∈ done ∨ x ∈ todo → x ∈ out) ∧
        (∀ S ∈ out, ∀ T ∈ transTargets A S, T ∈ out) := by
  intro fuel
  induction fuel with
  | zero =>
    intro done todo out hinv heq
    rcases todo with _ | ⟨S, todo⟩
    · rw [closeStates] at heq
      cases heq
      refine ⟨fun x hx => ?_, fun S hS T hT => ?_⟩
      · rcases hx with hx | hx
        · exact hx
        · simp at hx
      · rcases hinv S hS T hT with h | h
        · exact h
        · simp at h
    · rw [closeStates] at heq
      cases heq
  | succ fuel ih =>
    intro done todo out hinv heq
    rcases todo with _ | ⟨S, todo⟩
    · rw [closeStates] at heq
      cases heq
      refine ⟨fun x hx => ?_, fun S hS T hT => ?_⟩
      · rcases hx with hx | hx
        · exact hx
        · simp at hx
      · rcases hinv S hS T hT with h | h
        · exact h
        · simp at h
    · rw [closeStates] at heq
      have hinv' : ∀ S' ∈ done ++ [S], ∀ T ∈ transTargets A S',
          T ∈ done ++ [S] ∨
            T ∈ todo ++ ((transTargets A S).filter
              (fun T => decide (T ∉ done ∧ T ∉ S :: todo))).dedup := by
        intro S' hS' T hT
        rcases List.mem_append.mp hS' with hS' | hS'
        · rcases hinv S' hS' T hT with h | h
          · exact Or.inl (List.mem_append_left _ h)
          · rcases List.mem_cons.mp h with rfl | h
            · exact Or.inl (List.mem_append_right _ (List.mem_singleton_self _))
            · exact Or.inr (List.mem_append_left _ h)
        · have hSS : S' = S := by simpa using hS'
          subst hSS
          by_cases hd : T ∈ done
          · exact Or.inl (List.mem_append_left _ hd)
          · by_cases ht : T ∈ S' :: todo
            · rcases List.mem_cons.mp ht with rfl | ht
              · exact Or.inl (List.mem_append_right _ (List.mem_singleton_self _))
              · exact Or.inr (List.mem_append_left _ ht)
            · exact Or.inr (List.mem_append_right _
                ((mem_fresh_iff A S' done todo T).mpr ⟨hT, hd, ht⟩))
      rcases ih (done ++ [S]) _ out hinv' heq with ⟨hsub, hclosed⟩
      refine ⟨fun x hx => ?_, hclosed⟩
      rcases hx with hx | hx
      · exact hsub x (Or.inl (List.mem_append_left _ hx))
      · rcases List.mem_cons.mp hx with rfl | hx
        · exact hsub x (Or.inl (List.mem_append_right _ (List.mem_singleton_self _)))
        · exact hsub x (Or.inr (List.mem_append_left _ hx))

theorem buildStates_spec (A : LexNFA) (fuel : Nat) (out : List (Finset Nat))
    (h : buildStates A fuel = some out) :
    (∀ S ∈ out, ∀ T ∈ transTargets A S, T ∈ out) ∧
      (∅ : Finset Nat) ∈ out ∧ dfaStart A ∈ out := by
  unfold buildStates at h
  rcases closeStates_spec A fuel [] [∅, dfaStart A] out
      (by intro S hS; simp at hS) h with ⟨hsub, hclosed⟩
  exact ⟨hclosed, hsub _ (Or.inr (by simp)), hsub _ (Or.inr (by simp))⟩

/-! ## The Emplex front end: validation aggregates every rule's diagnostics -/

theorem testValidTableGo_eq (notes : String → List String) :
    ∀ (l : List TokenInfo) (line_num : Nat) (seen errs : List String),
      testValidTableGo notes l line_num seen errs =
        errs ++ allDiags notes l line_num seen := by
  intro l
  induction l with
  | nil => intro line_num seen errs; simp [testValidTableGo, allDiags]
  | cons t rest ih =>
    intro line_num seen errs
    rw [testValidTableGo, allDiags, ruleDiags, seenUpdate]
    split_ifs <;> rw [ih] <;> simp [List.append_assoc]

theorem ruleDiags_ne_nil_iff (notes : String → List String) (seen : List String)
    (line_num : Nat) (t : TokenInfo) :
    ruleDiags notes seen line_num t ≠ [] ↔ RuleDefective notes seen t := by
  unfold ruleDiags RuleDefective
  split_ifs with h1 h2 h3 h4 h5 <;> simp_all

/-! ## Well-formedness of the concrete automata -/

theorem rawDigitPlus_wf : RawWF rawDigitPlus := by
  refine ⟨by decide, fun q => ?_, fun q b => ?_⟩
  · show (∅ : Finset Nat) ⊆ Finset.range 2
    simp
  · show (if (q = 0 ∨ q = 1) ∧ 48 ≤ b ∧ b ≤ 57 then ({1} : Finset Nat) else ∅) ⊆
      Finset.range 2
    split_ifs
    · decide
    · simp

theorem rawWS_wf : RawWF rawWS := by
  refine ⟨by decide, fun q => ?_, fun q b => ?_⟩
  · show (∅ : Finset Nat) ⊆ Finset.range 2
    simp
  · show (if (q = 0 ∨ q = 1) ∧ (b = 32 ∨ b = 9 ∨ b = 10) then ({1} : Finset Nat) else ∅) ⊆
      Finset.range 2
    split_ifs
    · decide
    · simp

theorem rawKW_wf : RawWF rawKW := by
  refine ⟨by decide, fun q => ?_, fun q b => ?_⟩
  · show (∅ : Finset Nat) ⊆ Finset.range 3
    simp
  · show (if q = 0 ∧ b = 105 then ({1} : Finset Nat)
        else if q = 1 ∧ b = 102 then {2} else ∅) ⊆ Finset.range 3
    split_ifs
    · decide
    · decide
    · simp

theorem rawID_wf : RawWF rawID := by
  refine ⟨by decide, fun q => ?_, fun q b => ?_⟩
  · show (∅ : Finset Nat) ⊆ Finset.range 2
    simp
  · show (if (q = 0 ∨ q = 1) ∧ 97 ≤ b ∧ b ≤ 122 then ({1} : Finset Nat) else ∅) ⊆
      Finset.range 2
    split_ifs
    · decide
    · simp

theorem intNFA_wf : WFA intNFA :=
  WFA_mergeRules _ (by
    intro x hx
    rcases List.mem_singleton.mp hx with rfl
    exact rawDigitPlus_wf)

theorem kwIdRules_wf : ∀ x ∈ [(rawKW, false), (rawID, false)], RawWF x.1 := by
  intro x hx
  rcases List.mem_cons.mp hx with rfl | hx
  · exact rawKW_wf
  · rcases List.mem_singleton.mp hx with rfl
    exact rawID_wf

theorem kwIdNFA_wf : WFA kwIdNFA :=
  WFA_mergeRules _ kwIdRules_wf

/-! ## The claims -/

/-- C1: Maximal munch.  For every compiled rule set (merged NFA), every
input and every scan offset at which the scanner emits a token, no rule
matches a strictly longer prefix of the remaining input than the lexeme the
scanner selects; the scan loop achieves this by always recording the most
recent accepting DFA state visited, so later, longer matches overwrite
earlier, shorter ones. -/
theorem scanner_maximal_munch (A : LexNFA) (hA : WFA A) (input : List Nat)
    (len : Nat) (m : Nat × Bool) (h : scanOnce A input = (len, some m)) :
    ∀ j k, len < j → j ≤ input.length → ¬ RuleMatches A k (input.take j) := by
  intro j k hj hjle
  exact no_match_of_accept_none A hA _
    (scanOnce_maximal A input len (some m) h j hj hjle) k

theorem scanner_maximal_munch_witness :
    WFA intNFA ∧ scanOnce intNFA [49, 50, 97] = (2, some (0, false)) ∧
      ¬ RuleMatches intNFA 0 ([49, 50, 97].take 3) :=
  ⟨intNFA_wf, by decide,
    scanner_maximal_munch intNFA intNFA_wf [49, 50, 97] 2 (0, false)
      (by decide) 3 0 (by decide) (by decide)⟩

/-- C2: Priority tie-break.  Whenever the scanner emits a token, the
selected rule matches the selected lexeme and has the lowest ordinal among
all rules matching a lexeme of that maximal length (regardless of either
rule's ignore flag); and any DFA state whose underlying NFA-state subset
contains accepting states carries the accept metadata of the accepting
state with the lowest priority value among those present. -/
theorem scanner_priority_tiebreak (A : LexNFA) (hA : WFA A) :
    (∀ (input : List Nat) (len p : Nat) (ig : Bool),
      scanOnce A input = (len, some (p, ig)) →
      RuleMatches A p (input.take len) ∧
        ∀ k, RuleMatches A k (input.take len) → p ≤ k) ∧
    (∀ S : Finset Nat, S ⊆ Finset.range A.n →
      ∀ (q p : Nat) (ig : Bool), q ∈ S → A.accept q = some (p, ig) →
        ∃ m, dfaAccept A S = some m ∧ m.1 ≤ p ∧
          ∃ r ∈ S, A.accept r = some m) := by
  constructor
  · intro input len p ig h
    have hsome := scanOnce_some A input len (p, ig) h
    constructor
    · rcases dfaAccept_mem A _ hsome.2.2 with ⟨q, hq, hacc⟩
      exact (ruleMatches_iff A hA p _).mpr ⟨q, hq, ig, hacc⟩
    · intro k hk
      rcases (ruleMatches_iff A hA k _).mp hk with ⟨q, hq, ig', hacc⟩
      rcases dfaAccept_min A _ (dfaRun_range A hA _) hq hacc with ⟨m, hm, hle⟩
      rw [hsome.2.2] at hm
      cases hm
      exact hle
  · intro S hS q p ig hq hacc
    rcases dfaAccept_min A S hS hq hacc with ⟨m, hm, hle⟩
    rcases dfaAccept_mem A S hm with ⟨r, hr, hracc⟩
    exact ⟨m, hm, hle, r, hr, hracc⟩

theorem scanner_priority_tiebreak_witness :
    WFA kwIdNFA ∧
      (RuleMatches kwIdNFA 0 ([105, 102].take 2) ∧
        ∀ k, RuleMatches kwIdNFA k ([105, 102].take 2) → 0 ≤ k) :=
  ⟨kwIdNFA_wf,
    (scanner_priority_tiebreak kwIdNFA kwIdNFA_wf).1 [105, 102] 2 0 false
      (by decide)⟩

/-- C3: Round trip.  For every compiled rule set and every input free of
lexical errors, concatenating the lexemes of all tokens produced by
`tokenize` with ignored tokens kept, in original scan order, reproduces the
original input byte-for-byte. -/
theorem tokenize_round_trip (A : LexNFA) (input : List Nat)
    (_herr : ∀ t ∈ tokenize A true input, t.id ≠ errorId) :
    concatLexemes (tokenize A true input) = input :=
  tokenizeGo_lexemes A input.length input (1, 1) le_rfl

theorem tokenize_round_trip_witness :
    (∀ t ∈ tokenize intNFA true [49, 50], t.id ≠ errorId) ∧
      concatLexemes (tokenize intNFA true [49, 50]) = [49, 50] :=
  ⟨by decide, tokenize_round_trip intNFA [49, 50] (by decide)⟩

/-- C4: Token id semantics.  For the automaton compiled from an ordered
rule list, every token carries either the 0-based ordinal of a rule that
matches its lexeme (a priority below the number of rules), or the sentinel
error id together with a one-byte lexeme; and the scanner reports an error
at an offset exactly when no rule matches any nonempty prefix of the
remaining input there. -/
theorem tokenize_token_ids (rules : List (RawNFA × Bool))
    (hr : ∀ x ∈ rules, RawWF x.1) (keep : Bool) (input : List Nat) :
    (∀ t ∈ tokenize (mergeRules rules) keep input,
      (t.id = errorId ∧ t.lexeme.length = 1) ∨
      (∃ k, k < rules.length ∧ t.id = Int.ofNat k ∧
        RuleMatches (mergeRules rules) k t.lexeme)) ∧
    (∀ (rest : List Nat) (len : Nat),
      scanOnce (mergeRules rules) rest = (len, none) →
      ∀ j k, 0 < j → j ≤ rest.length →
        ¬ RuleMatches (mergeRules rules) k (rest.take j)) := by
  have hA := WFA_mergeRules rules hr
  constructor
  · intro t ht
    exact tokenizeGo_ids (mergeRules rules) hA rules.length
      (fun q p ig h => mergeRules_accept_lt rules q p ig h)
      input.length keep input (1, 1) t ht
  · intro rest len h j k hj hjle
    exact no_match_of_accept_none _ hA _
      ((scanOnce_error _ rest len h).2 j hj hjle) k

theorem tokenize_token_ids_witness :
    (⟨0, [105, 102], 1, 1⟩ : Token) ∈ tokenize kwIdNFA false [105, 102] ∧
      (((⟨0, [105, 102], 1, 1⟩ : Token).id = errorId ∧
          (⟨0, [105, 102], 1, 1⟩ : Token).lexeme.length = 1) ∨
        ∃ k, k < ([(rawKW, false), (rawID, false)]).length ∧
          (⟨0, [105, 102], 1, 1⟩ : Token).id = Int.ofNat k ∧
          RuleMatches kwIdNFA k (⟨0, [105, 102], 1, 1⟩ : Token).lexeme) :=
  ⟨by decide,
    (tokenize_token_ids [(rawKW, false), (rawID, false)] kwIdRules_wf
      false [105, 102]).1 _ (by decide)⟩

/-- C5: DFA totality and dead-state fixed point.  Whenever the worklist
subset construction completes, every byte 0-255 maps every compiled DFA
state to a compiled DFA state; the distinguished dead state is among the
compiled states, every byte maps the dead state to itself, and the dead
state's accept metadata is none. -/
theorem dfa_totality_dead_state (A : LexNFA) (fuel : Nat)
    (states : List (Finset Nat)) (h : buildStates A fuel = some states) :
    (∀ S ∈ states, ∀ b, b < 256 → dfaStep A S b ∈ states) ∧
    (∅ : Finset Nat) ∈ states ∧
    (∀ b, dfaStep A ∅ b = ∅) ∧
    dfaAccept A (∅ : Finset Nat) = none := by
  rcases buildStates_spec A fuel states h with ⟨hclosed, hdead, _⟩
  refine ⟨fun S hS b hb => ?_, hdead, dfaStep_dead A, dfaAccept_dead A⟩
  exact hclosed S hS _ (List.mem_map.mpr ⟨b, List.mem_range.mpr hb, rfl⟩)

theorem dfa_totality_dead_state_witness :
    buildStates oneNFA 9 = some [∅, {0}, {1}] ∧
      (∀ S ∈ [(∅ : Finset Nat), {0}, {1}], ∀ b, b < 256 →
        dfaStep oneNFA S b ∈ [(∅ : Finset Nat), {0}, {1}]) ∧
      dfaAccept oneNFA (∅ : Finset Nat) = none :=
  ⟨by decide,
    (dfa_totality_dead_state oneNFA 9 [∅, {0}, {1}] (by decide)).1,
    (dfa_totality_dead_state oneNFA 9 [∅, {0}, {1}] (by decide)).2.2.2⟩

/-- C6: Lexical-error resilience.  Whenever the scanner visits no accepting
state from some starting offset, the tokenizer emits a sentinel error token
consuming exactly one byte and continues scanning from the following
offset; concretely, with the single rule `INT="[0-9]+"`, the input "12a"
yields the token INT:"12" followed by a one-byte error token for "a". -/
theorem lexical_error_resilience :
    (∀ (A : LexNFA) (keep : Bool) (fuel b : Nat) (rest : List Nat)
        (pos : Nat × Nat) (len : Nat),
      scanOnce A (b :: rest) = (len, none) →
      tokenizeGo A keep (fuel + 1) (b :: rest) pos =
        ⟨errorId, [b], pos.1, pos.2⟩ ::
          tokenizeGo A keep fuel rest (advancePos pos b)) ∧
    tokenize intNFA false [49, 50, 97] =
      [⟨0, [49, 50], 1, 1⟩, ⟨errorId, [97], 1, 3⟩] := by
  constructor
  · intro A keep fuel b rest pos len h
    rw [tokenizeGo, h]
  · decide

theorem lexical_error_resilience_witness :
    scanOnce intNFA [97] = (1, none) ∧
      tokenizeGo intNFA false 1 [97] (1, 3) = [⟨errorId, [97], 1, 3⟩] :=
  ⟨by decide, by
    rw [lexical_error_resilience.1 intNFA false 0 97 [] (1, 3) 1 (by decide)]
    rfl⟩

/-- C9: Line/column tracking.  The position threaded through the
tokenization loop advances over every consumed byte, ignored or not (the
recursive call receives the fold of `advancePos` over the whole consumed
lexeme, whether or not the token is kept); a newline byte increments the
line and resets the column to 1, any other byte increments the column; and
with only the ignored rule `WS="[ \t\n]+"`, the input "a\nb" yields error
tokens for the two letters at line 1 column 1 and line 2 column 1. -/
theorem line_column_tracking :
    (∀ (A : LexNFA) (keep : Bool) (fuel b : Nat) (rest : List Nat)
        (pos : Nat × Nat) (len p : Nat) (ig : Bool),
      scanOnce A (b :: rest) = (len, some (p, ig)) →
      tokenizeGo A keep (fuel + 1) (b :: rest) pos =
        (if keep || !ig then
          [⟨Int.ofNat p, (b :: rest).take len, pos.1, pos.2⟩] else []) ++
          tokenizeGo A keep fuel ((b :: rest).drop len)
            (((b :: rest).take len).foldl advancePos pos)) ∧
    (∀ (pos : Nat × Nat) (b : Nat), advancePos pos b =
      if b = 10 then (pos.1 + 1, 1) else (pos.1, pos.2 + 1)) ∧
    tokenize wsNFA false [97, 10, 98] =
      [⟨errorId, [97], 1, 1⟩, ⟨errorId, [98], 2, 1⟩] := by
  refine ⟨?_, fun pos b => rfl, by decide⟩
  intro A keep fuel b rest pos len p ig h
  simp only [tokenizeGo, h]
  split_ifs with hk <;> simp

theorem line_column_tracking_witness :
    scanOnce wsNFA [10, 98] = (1, some (0, true)) ∧
      tokenizeGo wsNFA false 2 [10, 98] (1, 2) =
        tokenizeGo wsNFA false 1 [98] (2, 1) :=
  ⟨by decide, by
    rw [line_column_tracking.1 wsNFA false 1 10 [98] (1, 2) 1 0 true (by decide)]
    decide⟩

/-- C10: Rule-count limit.  The token table accepts at most 100 token rows:
in every state in which 100 token rows exist, `AddTableRow` issues a
warning and returns with the table-row count and the stored rule list
completely unchanged, and `AddTableRow` never pushes the token-row count
past 100. -/
theorem addTableRow_limit :
    (∀ s : EmplexState, s.numTableRows - 1 = maxTokens →
      addTableRow s = (s, true)) ∧
    (∀ s : EmplexState, s.numTableRows - 1 ≤ maxTokens →
      (addTableRow s).1.numTableRows - 1 ≤ maxTokens) := by
  constructor
  · intro s h
    unfold addTableRow
    rw [if_pos (by omega)]
  · intro s h
    by_cases hb : maxTokens ≤ s.numTableRows - 1
    · have hs : addTableRow s = (s, true) := by
        unfold addTableRow
        rw [if_pos hb]
      rw [hs]
      exact h
    · have hs : (addTableRow s).1.numTableRows = s.numTableRows + 1 := by
        unfold addTableRow
        rw [if_neg hb]
      rw [hs]
      unfold maxTokens at hb ⊢
      omega

theorem addTableRow_limit_witness :
    addTableRow ⟨101, List.replicate 100 blankTokenInfo, [], []⟩ =
      (⟨101, List.replicate 100 blankTokenInfo, [], []⟩, true) :=
  addTableRow_limit.1 ⟨101, List.replicate 100 blankTokenInfo, [], []⟩ (by decide)

/-- C7 (counterexample): the claim promises one diagnostic per defective
rule, but the 2024 `TestValidTable` produces two diagnostics for the single
defective rule on its line 2: a table with two rules that both lack a name
(but have regexes) yields three diagnostics for its two rules - the second
rule is reported both for the missing name and as a duplicate of the
first's (empty) name. -/
theorem testValidTable_one_diag_cex :
    testValidTableErrsV0 (fun _ => []) [⟨"", "r1", false⟩, ⟨"", "r2", false⟩] =
      ["Error (line 1) - No name provided for RegEx: r1",
       "Error (line 2) - No name provided for RegEx: r2",
       "Error (line 2) - Multiple token types named ."] ∧
    ([⟨"", "r1", false⟩, ⟨"", "r2", false⟩] : List TokenInfo).length = 2 := by
  constructor
  · decide
  · rfl

/-- C7 (amended): validation examines every rule and returns the
concatenation of every rule's diagnostics - at least one diagnostic per
defective rule, and possibly several - never short-circuiting on the first
error, and it mutates neither the stored rule definitions nor the compiled
lexer; the returned flag is set exactly when no diagnostic was produced. -/
theorem testValidTable_aggregates (notes : String → List String)
    (s : EmplexState) :
    (testValidTable notes s).1.errors = allDiags notes s.token_info 0 [] ∧
    (testValidTable notes s).1.token_info = s.token_info ∧
    (testValidTable notes s).1.lexer = s.lexer ∧
    (testValidTable notes s).1.numTableRows = s.numTableRows ∧
    (testValidTable notes s).2 = ((testValidTable notes s).1.errors).isEmpty ∧
    (∀ (seen : List String) (ln : Nat) (t : TokenInfo),
      ruleDiags notes seen ln t ≠ [] ↔ RuleDefective notes seen t) := by
  refine ⟨?_, rfl, rfl, rfl, rfl, ruleDiags_ne_nil_iff notes⟩
  show testValidTableGo notes s.token_info 0 [] [] = allDiags notes s.token_info 0 []
  rw [testValidTableGo_eq]
  rfl

theorem testValidTable_aggregates_witness :
    (testValidTable (fun _ => []) ⟨4, [⟨"A", "a", false⟩], [], []⟩).1.errors =
      allDiags (fun _ => []) [⟨"A", "a", false⟩] 0 [] ∧
    (testValidTable (fun _ => []) ⟨4, [⟨"A", "a", false⟩], [], []⟩).1.token_info =
      [⟨"A", "a", false⟩] :=
  ⟨(testValidTable_aggregates (fun _ => []) ⟨4, [⟨"A", "a", false⟩], [], []⟩).1,
    (testValidTable_aggregates (fun _ => []) ⟨4, [⟨"A", "a", false⟩], [], []⟩).2.1⟩

/-- C8 (counterexample): the claim promises that a rule with a bad name is
excluded while construction proceeds for the remaining valid rules, but
`GenerateLexer` halts entirely on any diagnostic: with a duplicate-name
pair followed by a perfectly valid rule GOOD, generation reports failure
and loads nothing - the valid rule GOOD is not in the constructed lexer. -/
theorem generateLexer_exclusion_cex :
    (generateLexer (fun _ => [])
      ⟨4, [⟨"DUP", "a", false⟩, ⟨"DUP", "b", false⟩, ⟨"GOOD", "c", false⟩],
        [], []⟩).2 = false ∧
    (generateLexer (fun _ => [])
      ⟨4, [⟨"DUP", "a", false⟩, ⟨"DUP", "b", false⟩, ⟨"GOOD", "c", false⟩],
        [], []⟩).1.lexer = [] ∧
    (generateLexer (fun _ => [])
      ⟨4, [⟨"DUP", "a", false⟩, ⟨"DUP", "b", false⟩, ⟨"GOOD", "c", false⟩],
        [], []⟩).1.errors ≠ [] ∧
    (generateLexer (fun _ => []) ⟨2, [⟨"GOOD", "c", false⟩], [], []⟩).1.lexer =
      [("GOOD", "c", false)] := by
  refine ⟨by decide, by decide, by decide, by decide⟩

/-- C8 (amended): every defective rule is reported as a diagnostic and
diagnosis covers all rules, but automaton construction is all-or-nothing:
if validation produces any diagnostic, `GenerateLexer` returns false and
leaves the lexer untouched; only when validation is clean does it load
every named rule, in list order, into the lexer (blank rows skipped). -/
theorem generateLexer_halts_on_errors (notes : String → List String)
    (s : EmplexState) :
    ((testValidTable notes s).2 = false →
      generateLexer notes s = ((testValidTable notes s).1, false)) ∧
    ((testValidTable notes s).2 = true →
      generateLexer notes s =
        ({ (testValidTable notes s).1 with
            lexer := (s.token_info.filter (fun t => ¬ t.name = "")).map
              (fun t => (t.name, t.regex, t.ignore)) }, true)) := by
  have hfold : ∀ (l : List TokenInfo) (acc : List (String × String × Bool)),
      l.foldl (fun acc t =>
        if t.name = "" then acc else acc ++ [(t.name, t.regex, t.ignore)]) acc =
      acc ++ (l.filter (fun t => ¬ t.name = "")).map
        (fun t => (t.name, t.regex, t.ignore)) := by
    intro l
    induction l with
    | nil => intro acc; simp
    | cons t rest ih =>
      intro acc
      rw [List.foldl_cons]
      by_cases hn : t.name = ""
      · rw [if_pos hn, ih]
        simp [List.filter_cons, hn]
      · rw [if_neg hn, ih]
        simp [List.filter_cons, hn]
  constructor
  · intro h
    simp [generateLexer, h]
  · intro h
    simp [generateLexer, h, hfold]
    rfl

theorem generateLexer_halts_on_errors_witness :
    (testValidTable (fun _ => [])
      ⟨4, [⟨"DUP", "a", false⟩, ⟨"DUP", "b", false⟩], [], []⟩).2 = false ∧
    generateLexer (fun _ => [])
        ⟨4, [⟨"DUP", "a", false⟩, ⟨"DUP", "b", false⟩], [], []⟩ =
      ((testValidTable (fun _ => [])
        ⟨4, [⟨"DUP", "a", false⟩, ⟨"DUP", "b", false⟩], [], []⟩).1, false) ∧
    (testValidTable (fun _ => []) ⟨2, [⟨"GOOD", "c", false⟩], [], []⟩).2 = true ∧
    generateLexer (fun _ => []) ⟨2, [⟨"GOOD", "c", false⟩], [], []⟩ =
      ({ (testValidTable (fun _ => []) ⟨2, [⟨"GOOD", "c", false⟩], [], []⟩).1 with
          lexer := (([⟨"GOOD", "c", false⟩] : List TokenInfo).filter
              (fun t => ¬ t.name = "")).map
            (fun t => (t.name, t.regex, t.ignore)) }, true) :=
  ⟨by decide,
    (generateLexer_halts_on_errors (fun _ => [])
      ⟨4, [⟨"DUP", "a", false⟩, ⟨"DUP", "b", false⟩], [], []⟩).1 (by decide),
    by decide,
    (generateLexer_halts_on_errors (fun _ => [])
      ⟨2, [⟨"GOOD", "c", false⟩], [], []⟩).2 (by decide)⟩
